import Mathlib

/-!
Verification of the two-pass normalization pipeline of the wavehacker
repository (`src/operations/normalize.rs`) against its specification.

Embedding conventions:
* f32/f64 sample and gain values are modelled by the type `F`: a finite
  rational, positive infinity, negative infinity, or NaN.  Finite arithmetic
  is exact rational arithmetic (the claims under study are structural or use
  values on which IEEE arithmetic is exact); the special-value rules of
  multiplication and division (x/0, 0*inf, ...) follow IEEE 754.  The
  `as f32` narrowing cast of an f64 value is modelled as the identity.
* `10.0_f64.powf e` is modelled by an abstract function `p10 : ℚ → ℚ`
  (its value is finite for every target in the representable dB range);
  `f64::sqrt` by an abstract `fsqrt : F → F`.  Theorems that need concrete
  values of these functions take them as hypotheses that hold exactly in
  IEEE 754 (powf(10,0) = 1, sqrt(0) = 0, sqrt(1) = 1, sqrt(4) = 2).
* The sample source (`WavReader::samples::<f32>`) is a list of per-sample
  read results, as in hound; the seek / write / finalize operations of the
  reader and writer are external interfaces whose success or failure is
  injected through an environment `Env`.
* `FrameIterator` (crate::frame), the RMS analyzer (crate::analyzer::rms)
  and the loudness analyzer (crate::analyzer::loudness) are not part of the
  given sources; they are modelled from the specification, as marked on
  each definition.
* The `panic!` of the Amplitude branch and a possible out-of-bounds panic
  of `gain[i]` are modelled as distinguished error outcomes
  (`unimplemented`, `gainIndexOutOfBounds`).
-/

/-- A source read failure as reported by the sample iterator for one
sample (hound's per-sample `Result`); the payload distinguishes
causes, which the core propagates unchanged. -/
inductive ReadError where
  | ioErr : ℕ → ReadError
deriving DecidableEq, Repr

/-- Error outcomes of one normalization run.  `sourceRead`, `seekFailed`,
`writeFailed`, `finalizeFailed` are I/O faults of the source or sink;
`malformedStream` is the frame iterator's fault for a sample count not
divisible by the channel count; `unimplemented` models the
`panic!("Not implemented yet!")` of the Amplitude branch;
`gainIndexOutOfBounds` models an out-of-bounds `gain[i]` panic. -/
inductive RunError where
  | sourceRead : ReadError → RunError
  | malformedStream
  | seekFailed
  | writeFailed
  | finalizeFailed
  | unimplemented
  | gainIndexOutOfBounds
deriving DecidableEq, Repr

/-- IEEE-style value: finite rational, +inf, -inf, or NaN. -/
inductive F where
  | fin : ℚ → F
  | inf : F
  | neginf : F
  | nan : F
deriving DecidableEq, Repr

namespace F

/-- IEEE 754 multiplication on `F` (finite arithmetic exact). -/
def fmul : F → F → F
  | nan, _ => nan
  | fin _, nan => nan
  | inf, nan => nan
  | neginf, nan => nan
  | fin a, fin b => fin (a * b)
  | fin a, inf => if 0 < a then inf else if a < 0 then neginf else nan
  | fin a, neginf => if 0 < a then neginf else if a < 0 then inf else nan
  | inf, fin b => if 0 < b then inf else if b < 0 then neginf else nan
  | neginf, fin b => if 0 < b then neginf else if b < 0 then inf else nan
  | inf, inf => inf
  | inf, neginf => neginf
  | neginf, inf => neginf
  | neginf, neginf => inf

/-- IEEE 754 division on `F`.  Rationals have no signed zero, so a zero
divisor is treated as +0: x/0 is +inf for x > 0, -inf for x < 0, NaN
for x = 0. -/
def fdiv : F → F → F
  | nan, _ => nan
  | fin _, nan => nan
  | inf, nan => nan
  | neginf, nan => nan
  | fin a, fin b =>
      if b = 0 then (if 0 < a then inf else if a < 0 then neginf else nan)
      else fin (a / b)
  | fin _, inf => fin 0
  | fin _, neginf => fin 0
  | inf, fin b => if 0 ≤ b then inf else neginf
  | neginf, fin b => if 0 ≤ b then neginf else inf
  | inf, inf => nan
  | inf, neginf => nan
  | neginf, inf => nan
  | neginf, neginf => nan

end F

/-- `Mode` from `src/operations/normalize.rs`: the algorithm to use. -/
inductive Mode where
  | Amplitude
  | Lufs
  | Rms
deriving DecidableEq, Repr

/-- `Settings` from `src/operations/normalize.rs`. -/
structure Settings where
  mode : Mode
  target : ℚ
  channel_independent : Bool
  strict_ebur128 : Bool
deriving DecidableEq, Repr

/-- Observable events of one run, in order: a sample read during
measurement (pass 1), the rewind of the source, a frame yielded by the
frame iterator in pass 2, a successful sample write, and the invocation
of the sink's finalize operation. -/
inductive Event where
  | readEv : Event
  | seekEv : Event
  | frameEv : Event
  | writeEv : F → Event
  | finalizeEv : Event
deriving DecidableEq, Repr

/-- Behaviour of the external seek/write/finalize interfaces during one
run: whether `input.seek(0)` fails, whether the k-th sample write
(0-based, counted over the whole run) fails, and whether
`output.finalize()` fails. -/
structure Env where
  seekFail : Bool
  writeFail : ℕ → Bool
  finalizeFail : Bool

/-- The environment in which every external I/O operation succeeds. -/
def Env.ok : Env := ⟨false, fun _ => false, false⟩

/-- A sample source: the per-sample results of `input.samples::<f32>()`. -/
abbrev Source := List (Except ReadError ℚ)

/-- Modelled from the spec: one pull of `FrameIterator` (crate::frame, not
under src/) collecting the next `n` samples from the source.  A source
read error is propagated; end of stream inside a frame is the
malformed-stream fault; otherwise the complete frame is returned. -/
def takeFrame : ℕ → Source → Except RunError (List ℚ)
  | 0, _ => .ok []
  | _ + 1, [] => .error .malformedStream
  | _ + 1, .error e :: _ => .error (.sourceRead e)
  | n + 1, .ok x :: rest => (takeFrame n rest).map (x :: ·)

/-- Modelled from the spec: the full sequence of results yielded by
`FrameIterator::new(samples, n)` (crate::frame, not under src/): complete
frames of length `n` in stream order, ending at end-of-stream, or with a
single error result on a source read failure or a final partial frame.
A channel count of 0 is treated as malformed (the spec assumes a positive
channel count validated by the caller). -/
def frameResults (n : ℕ) : Source → List (Except RunError (List ℚ))
  | [] => []
  | x :: rest =>
    if n = 0 then [.error .malformedStream]
    else
      match takeFrame n (x :: rest) with
      | .error e => [.error e]
      | .ok vals => .ok vals :: frameResults n ((x :: rest).drop n)
termination_by xs => xs.length
decreasing_by
  simp only [List.length_drop, List.length_cons]
  omega

/-- Number of samples pulled from the source before it is exhausted or
yields its first read error (the reads performed by an analyzer that
consumes the stream to the end). -/
def readCount : Source → ℕ
  | [] => 0
  | .ok _ :: rest => readCount rest + 1
  | .error _ :: _ => 1

/-- First error of a list of frame results, or the list of frames. -/
def collectFrames : List (Except RunError (List ℚ)) → Except RunError (List (List ℚ))
  | [] => .ok []
  | .error e :: _ => .error e
  | .ok f :: rest => (collectFrames rest).map (f :: ·)

/-- Modelled from the spec: frame demultiplexing of a fully read stream —
all frames of `frameResults`, or its first error. -/
def splitFrames (n : ℕ) (xs : Source) : Except RunError (List (List ℚ)) :=
  collectFrames (frameResults n xs)

/-- Per-channel sum of squared samples over a list of frames. -/
def sumSquares (frames : List (List ℚ)) (c : ℕ) : ℚ :=
  (frames.map (fun f => (f.getD c 0) ^ 2)).sum

/-- Modelled from the spec: the RMS analyzer (crate::analyzer::rms, not
under src/).  "For each frame, accumulate squared sample value per channel
(or squared value of the linked combination when not independent); after
stream exhaustion, result per channel = square root of (accumulated sum /
frame count)."  The linked combination of a frame is the sum of its
samples.  The mean is formed by `F.fdiv`, so an empty stream yields
sqrt(0/0) = NaN as in f64. -/
def rmsAnalyze (fsqrt : F → F) (channel_independent : Bool) (n : ℕ)
    (xs : Source) : Except RunError (List F) :=
  (splitFrames n xs).map fun frames =>
    if channel_independent then
      (List.range n).map fun c =>
        fsqrt (F.fdiv (F.fin (sumSquares frames c)) (F.fin frames.length))
    else
      [fsqrt (F.fdiv (F.fin ((frames.map (fun f => f.sum ^ 2)).sum))
        (F.fin frames.length))]

/-- Gain resolution of the `Mode::Rms` branch of `Settings::normalize`
(src/operations/normalize.rs lines 79-81):
`rms.iter().map(|x| (10.0_f64.powf(self.target / 20.0) / x) as f32)`. -/
def rmsGain (p10 : ℚ → ℚ) (target : ℚ) (rms : List F) : List F :=
  rms.map fun x => F.fdiv (F.fin (p10 (target / 20))) x

/-- Gain resolution of the `Mode::Lufs` branch of `Settings::normalize`
(src/operations/normalize.rs lines 69-74):
`loudness.iter().map(|x| (10.0_f64.powf(self.target / 10.0) / x).sqrt() as f32)`. -/
def lufsGain (p10 : ℚ → ℚ) (fsqrt : F → F) (target : ℚ)
    (loudness : List F) : List F :=
  loudness.map fun x => fsqrt (F.fdiv (F.fin (p10 (target / 10))) x)

/-- Inner loop of pass 2 over one frame
(`for (i, sample) in frame.iter().enumerate()`, src/operations/normalize.rs
lines 94-101).  `i` is the enumeration index of the next sample of the
frame, `w` the global count of writes performed so far in the run.  The
lookup `gain[i]` (respectively `gain[0]` when not channel-independent) is
modelled by `List.get?`; an out-of-bounds lookup is the indexing panic.
Events are the successful writes, in order. -/
def writeFrame (ci : Bool) (gain : List F) (env : Env) :
    ℕ → ℕ → List ℚ → List Event × Except RunError ℕ
  | _, w, [] => ([], .ok w)
  | i, w, s :: rest =>
    match (if ci then gain.get? i else gain.get? 0) with
    | none => ([], .error .gainIndexOutOfBounds)
    | some g =>
      if env.writeFail w then ([], .error .writeFailed)
      else
        let (evs, r) := writeFrame ci gain env (i + 1) (w + 1) rest
        (Event.writeEv (F.fmul (F.fin s) g) :: evs, r)

/-- The `while let Some(frame) = frames.next()` loop of pass 2
(src/operations/normalize.rs lines 90-105) over the sequence of frame
results: each yielded frame advances the progress reporter (event
`frameEv`); an `Ok` frame is written through the gain, an `Err` frame
aborts the run with that error. -/
def applyFrames (ci : Bool) (gain : List F) (env : Env) :
    ℕ → List (Except RunError (List ℚ)) → List Event × Except RunError ℕ
  | w, [] => ([], .ok w)
  | _, .error e :: _ => ([Event.frameEv], .error e)
  | w, .ok fr :: rest =>
    match writeFrame ci gain env 0 w fr with
    | (evs, .error e) => (Event.frameEv :: evs, .error e)
    | (evs, .ok w2) =>
      let (evs2, r) := applyFrames ci gain env w2 rest
      (Event.frameEv :: (evs ++ evs2), r)

/-- Pass 2 of `Settings::normalize` (src/operations/normalize.rs lines
85-106): `input.seek(0)?`, the frame loop, then `output.finalize()?`.
`finalizeEv` records the invocation of finalize, which happens exactly
when the loop completes without error. -/
def runPass2 (ci : Bool) (n : ℕ) (gain : List F) (xs : Source) (env : Env) :
    List Event × Except RunError Unit :=
  if env.seekFail then ([], .error .seekFailed)
  else
    match applyFrames ci gain env 0 (frameResults n xs) with
    | (evs, .error e) => (Event.seekEv :: evs, .error e)
    | (evs, .ok _) =>
      (Event.seekEv :: (evs ++ [Event.finalizeEv]),
       if env.finalizeFail then .error .finalizeFailed else .ok ())

/-- `Settings::normalize` (src/operations/normalize.rs lines 51-109).
`p10` models `10.0_f64.powf`, `fsqrt` models `f64::sqrt`, `lufsM` models
the measurement of the loudness analyzer (crate::analyzer::loudness, not
under src/; modelled from the spec as a pure function of the
channel-independent flag, the strict flag and the frames, reached after
the analyzer has consumed the source to the end).  `n` is
`spec.channels`, `xs` the sample stream of the source, `env` the
behaviour of the external seek/write/finalize operations.  Returns the
trace of observable events and the run's result; the `panic!` of the
Amplitude branch is the `unimplemented` error outcome. -/
def Settings.normalize (S : Settings) (p10 : ℚ → ℚ) (fsqrt : F → F)
    (lufsM : Bool → Bool → List (List ℚ) → List F)
    (n : ℕ) (xs : Source) (env : Env) :
    List Event × Except RunError Unit :=
  match S.mode with
  | .Amplitude => ([], .error .unimplemented)
  | .Lufs =>
    let reads := List.replicate (readCount xs) Event.readEv
    match splitFrames n xs with
    | .error e => (reads, .error e)
    | .ok frames =>
      let gain := lufsGain p10 fsqrt S.target
        (lufsM S.channel_independent S.strict_ebur128 frames)
      let (evs, r) := runPass2 S.channel_independent n gain xs env
      (reads ++ evs, r)
  | .Rms =>
    let reads := List.replicate (readCount xs) Event.readEv
    match rmsAnalyze fsqrt S.channel_independent n xs with
    | .error e => (reads, .error e)
    | .ok rms =>
      let gain := rmsGain p10 S.target rms
      let (evs, r) := runPass2 S.channel_independent n gain xs env
      (reads ++ evs, r)

/-- The samples written to the output sink, extracted from a trace. -/
def writesOf (tr : List Event) : List F :=
  tr.filterMap fun e =>
    match e with
    | .writeEv x => some x
    | _ => none

/-- Pure chunking of a sample list into frames of `n` samples, used to
describe the frames yielded by the frame iterator on a well-formed
stream. -/
def chunk (n : ℕ) : List ℚ → List (List ℚ)
  | [] => []
  | x :: rest =>
    if n = 0 ∨ (x :: rest).length < n then []
    else (x :: rest).take n :: chunk n ((x :: rest).drop n)
termination_by xs => xs.length
decreasing_by
  simp only [List.length_drop, List.length_cons]
  omega

/-- The measurement step of `Settings::normalize`: the result of the
analyzer selected by the algorithm kind (the Amplitude analyzer is
unimplemented). -/
def measureResult (S : Settings) (fsqrt : F → F)
    (lufsM : Bool → Bool → List (List ℚ) → List F)
    (n : ℕ) (xs : Source) : Except RunError (List F) :=
  match S.mode with
  | .Amplitude => .error .unimplemented
  | .Lufs =>
    (splitFrames n xs).map fun frames =>
      lufsM S.channel_independent S.strict_ebur128 frames
  | .Rms => rmsAnalyze fsqrt S.channel_independent n xs

/-- The gain-resolution step of `Settings::normalize`, per algorithm
kind. -/
def resolveGain (S : Settings) (p10 : ℚ → ℚ) (fsqrt : F → F)
    (meas : List F) : List F :=
  match S.mode with
  | .Amplitude => []
  | .Lufs => lufsGain p10 fsqrt S.target meas
  | .Rms => rmsGain p10 S.target meas

/-- Every step of a run that precedes the invocation of finalize
succeeds: the measurement (all source reads and the frame
demultiplexing of pass 1), the rewind of the source, and the whole
pass-2 loop (every frame read, gain lookup and sample write). -/
def priorStepsOk (S : Settings) (p10 : ℚ → ℚ) (fsqrt : F → F)
    (lufsM : Bool → Bool → List (List ℚ) → List F)
    (n : ℕ) (xs : Source) (env : Env) : Prop :=
  ∃ m, measureResult S fsqrt lufsM n xs = .ok m ∧
    env.seekFail = false ∧
    ∃ w, (applyFrames S.channel_independent (resolveGain S p10 fsqrt m)
      env 0 (frameResults n xs)).2 = .ok w

/-- A trace respects the linear phase order of the orchestrator:
measurement reads, then at most one rewind, then only frame and write
events of pass 2, then at most one final finalize invocation. -/
def linearTrace (tr : List Event) : Prop :=
  ∃ k body tl, tr = List.replicate k Event.readEv ++ body ++ tl ∧
    (body = [] ∨ ∃ b2, body = Event.seekEv :: b2 ∧
      ∀ e ∈ b2, e = Event.frameEv ∨ ∃ x, e = Event.writeEv x) ∧
    (tl = [] ∨ tl = [Event.finalizeEv])

/-- The gain formula of the spec for RMS mode, read off the spec text:
`gain[i] = 10^(target/20) / rms[i]` (no square root). -/
def specRmsGainAt (p10 : ℚ → ℚ) (target : ℚ) (rms : List F) (i : ℕ) : F :=
  F.fdiv (F.fin (p10 (target / 20))) (rms.getD i F.nan)

/-- The gain formula of the spec for Integrated-Loudness mode, read off
the spec text: `gain[i] = sqrt(10^(target/10) / loudness[i])`. -/
def specLufsGainAt (p10 : ℚ → ℚ) (fsqrt : F → F) (target : ℚ)
    (loudness : List F) (i : ℕ) : F :=
  fsqrt (F.fdiv (F.fin (p10 (target / 10))) (loudness.getD i F.nan))

/-- A concrete instance of `p10` for witnesses, agreeing with IEEE 754
where it is evaluated: powf(10, 0) = 1 and powf(10, 1) = 10 are both
exact. -/
def p10w : ℚ → ℚ := fun q => if q = 1 then 10 else 1

/-- A concrete instance of `fsqrt` for witnesses, agreeing with IEEE 754
where it is evaluated: sqrt is exact on 0, 1, 4 and on the special
values. -/
def fsqrtw : F → F := fun x =>
  match x with
  | .fin q =>
    if q = 0 then .fin 0
    else if q = 1 then .fin 1
    else if q = 4 then .fin 2
    else .nan
  | .inf => .inf
  | .neginf => .nan
  | .nan => .nan

/-- A concrete instance of the loudness measurement for witnesses. -/
def lufsw : Bool → Bool → List (List ℚ) → List F := fun _ _ _ => [F.fin 1]

/-- The 2-channel, 4-frame interleaved input stream
`[(1,2),(1,2),(1,2),(1,2)]` of the end-to-end scenario. -/
def src7 : Source :=
  [.ok 1, .ok 2, .ok 1, .ok 2, .ok 1, .ok 2, .ok 1, .ok 2]

theorem takeFrame_full (vals : List ℚ) (rest : Source) :
    takeFrame vals.length (vals.map .ok ++ rest) = .ok vals := by
  induction vals with
  | nil => rfl
  | cons x xs ih => simp [takeFrame, ih, Except.map]

theorem takeFrame_short (vals : List ℚ) : ∀ (n : ℕ), vals.length < n →
    takeFrame n (vals.map .ok) = .error .malformedStream := by
  induction vals with
  | nil =>
    intro n hn
    obtain ⟨k, rfl⟩ : ∃ k, n = k + 1 := ⟨n - 1, by omega⟩
    rfl
  | cons x xs ih =>
    intro n hn
    obtain ⟨k, rfl⟩ : ∃ k, n = k + 1 := ⟨n - 1, by omega⟩
    have hk : xs.length < k := by simpa using hn
    simp [takeFrame, ih k hk, Except.map]

theorem takeFrame_ok_length : ∀ (n : ℕ) (xs : Source) (fr : List ℚ),
    takeFrame n xs = .ok fr → fr.length = n := by
  intro n
  induction n with
  | zero =>
    intro xs fr h
    cases xs <;> simp [takeFrame] at h <;> simp [← h]
  | succ k ih =>
    intro xs fr h
    match xs with
    | [] => simp [takeFrame] at h
    | .error e :: rest => simp [takeFrame] at h
    | .ok x :: rest =>
      simp only [takeFrame] at h
      cases hk : takeFrame k rest with
      | error e => rw [hk] at h; simp [Except.map] at h
      | ok fr2 =>
        rw [hk] at h
        simp [Except.map] at h
        subst h
        simp [ih rest fr2 hk]

theorem takeFrame_error_shape : ∀ (n : ℕ) (xs : Source) (e : RunError),
    takeFrame n xs = .error e →
    e = .malformedStream ∨ ∃ re, e = .sourceRead re := by
  intro n
  induction n with
  | zero => intro xs e h; cases xs <;> simp [takeFrame] at h
  | succ k ih =>
    intro xs e h
    match xs with
    | [] =>
      simp [takeFrame] at h
      exact Or.inl h.symm
    | .error re :: rest =>
      simp [takeFrame] at h
      exact Or.inr ⟨re, h.symm⟩
    | .ok x :: rest =>
      simp only [takeFrame] at h
      cases hk : takeFrame k rest with
      | error e2 =>
        rw [hk] at h
        simp [Except.map] at h
        subst h
        exact ih rest e2 hk
      | ok fr2 => rw [hk] at h; simp [Except.map] at h

theorem chunk_length (n : ℕ) (hn : 0 < n) :
    ∀ (vals : List ℚ), (chunk n vals).length = vals.length / n
  | [] => by simp [chunk]
  | x :: rest => by
    rw [chunk]
    by_cases hlen : (x :: rest).length < n
    · rw [if_pos (Or.inr hlen), List.length_nil, Nat.div_eq_of_lt hlen]
    · have hle : n ≤ (x :: rest).length := Nat.le_of_not_lt hlen
      rw [if_neg (not_or.2 ⟨hn.ne', hlen⟩), List.length_cons,
        chunk_length n hn ((x :: rest).drop n), List.length_drop,
        Nat.div_eq_sub_div hn hle]
termination_by vals => vals.length
decreasing_by
  simp only [List.length_drop, List.length_cons]
  omega

theorem chunk_mem_length (n : ℕ) (hn : 0 < n) :
    ∀ (vals : List ℚ), ∀ f ∈ chunk n vals, f.length = n
  | [] => by simp [chunk]
  | x :: rest => by
    rw [chunk]
    by_cases hlen : (x :: rest).length < n
    · rw [if_pos (Or.inr hlen)]
      intro f hf
      simp at hf
    · have hle : n ≤ (x :: rest).length := Nat.le_of_not_lt hlen
      rw [if_neg (not_or.2 ⟨hn.ne', hlen⟩)]
      intro f hf
      rcases List.mem_cons.1 hf with h | h
      · subst h
        rw [List.length_take]
        exact min_eq_left hle
      · exact chunk_mem_length n hn ((x :: rest).drop n) f h
termination_by vals => vals.length
decreasing_by
  simp only [List.length_drop, List.length_cons]
  omega

theorem chunk_join (n : ℕ) (hn : 0 < n) :
    ∀ (vals : List ℚ), (chunk n vals).flatten = vals.take (n * (vals.length / n))
  | [] => by simp [chunk]
  | x :: rest => by
    rw [chunk]
    by_cases hlen : (x :: rest).length < n
    · rw [if_pos (Or.inr hlen), Nat.div_eq_of_lt hlen]
      simp
    · have hle : n ≤ (x :: rest).length := Nat.le_of_not_lt hlen
      rw [if_neg (not_or.2 ⟨hn.ne', hlen⟩), List.flatten_cons,
        chunk_join n hn ((x :: rest).drop n), List.length_drop,
        Nat.div_eq_sub_div hn hle, Nat.mul_add, Nat.mul_one,
        Nat.add_comm (n * (((x :: rest).length - n) / n)) n, List.take_add,
        List.take_drop]
termination_by vals => vals.length
decreasing_by
  simp only [List.length_drop, List.length_cons]
  omega

theorem frameResults_pure (n : ℕ) (hn : 0 < n) :
    ∀ (vals : List ℚ),
      frameResults n (vals.map .ok) =
        (chunk n vals).map .ok ++
          (if n ∣ vals.length then [] else [.error .malformedStream])
  | [] => by simp [frameResults, chunk]
  | x :: rest => by
    have hmap : (x :: rest).map (Except.ok (ε := ReadError)) =
        Except.ok x :: rest.map .ok := rfl
    rw [hmap, frameResults, if_neg hn.ne', chunk]
    by_cases hlen : (x :: rest).length < n
    · have ht : takeFrame n ((x :: rest).map .ok) = .error .malformedStream :=
        takeFrame_short (x :: rest) n hlen
      rw [hmap] at ht
      rw [ht, if_pos (Or.inr hlen)]
      have hnd : ¬ n ∣ (x :: rest).length := by
        intro hd
        rcases hd with ⟨k, hk⟩
        rcases Nat.eq_zero_or_pos k with h0 | h1
        · rw [h0, Nat.mul_zero] at hk
          simp at hk
        · have : n ≤ (x :: rest).length := by
            rw [hk]
            calc n = n * 1 := (Nat.mul_one n).symm
            _ ≤ n * k := Nat.mul_le_mul_left n h1
          omega
      rw [if_neg hnd]
      simp
    · have hle : n ≤ (x :: rest).length := Nat.le_of_not_lt hlen
      have hsplit : (x :: rest).map (Except.ok (ε := ReadError)) =
          ((x :: rest).take n).map .ok ++ ((x :: rest).drop n).map .ok := by
        rw [← List.map_append, List.take_append_drop]
      have htl : ((x :: rest).take n).length = n := by
        rw [List.length_take]
        exact min_eq_left hle
      have ht : takeFrame n ((x :: rest).map .ok) = .ok ((x :: rest).take n) := by
        rw [hsplit]
        have h2 := takeFrame_full ((x :: rest).take n) (((x :: rest).drop n).map .ok)
        rwa [htl] at h2
      rw [hmap] at ht
      rw [ht, if_neg (not_or.2 ⟨hn.ne', hlen⟩)]
      have hdropmap : (Except.ok x :: rest.map (Except.ok (ε := ReadError))).drop n =
          ((x :: rest).drop n).map .ok := by
        rw [← hmap, ← List.map_drop]
      rw [hdropmap, frameResults_pure n hn ((x :: rest).drop n)]
      have hdvd : (n ∣ (x :: rest).length) ↔ (n ∣ ((x :: rest).drop n).length) := by
        rw [List.length_drop]
        constructor
        · intro h
          exact Nat.dvd_sub' h dvd_rfl
        · intro h
          have h2 := Nat.dvd_add h (dvd_refl n)
          rwa [Nat.sub_add_cancel hle] at h2
      by_cases hd : n ∣ (x :: rest).length
      · rw [if_pos hd, if_pos (hdvd.1 hd)]
        simp
      · rw [if_neg hd, if_neg (fun hc => hd (hdvd.2 hc))]
        simp
termination_by vals => vals.length
decreasing_by
  simp only [List.length_drop, List.length_cons]
  omega

theorem writesOf_append (a b : List Event) :
    writesOf (a ++ b) = writesOf a ++ writesOf b := by
  simp [writesOf]

theorem writesOf_replicate_read (k : ℕ) :
    writesOf (List.replicate k Event.readEv) = [] := by
  induction k with
  | zero => rfl
  | succ m ih => simp only [List.replicate_succ, writesOf, List.filterMap_cons] at ih ⊢; exact ih

theorem gain_lookup_eq (ci : Bool) (gain : List F) (i : ℕ)
    (hci : ci = true → i < gain.length) (hlink : ci = false → gain ≠ []) :
    (if ci then gain.get? i else gain.get? 0) =
      some (gain.getD (if ci then i else 0) F.nan) := by
  cases ci with
  | false =>
    simp only [Bool.false_eq_true, if_false]
    cases gain with
    | nil => exact absurd rfl (hlink rfl)
    | cons g gs => simp [List.getD]
  | true =>
    have hi : i < gain.length := hci rfl
    simp [List.get?_eq_getElem?, List.getElem?_eq_getElem hi,
      List.getD_eq_getElem?_getD]

theorem writeFrame_ok (ci : Bool) (gain : List F) :
    ∀ (fr : List ℚ) (i w : ℕ),
    (ci = true → i + fr.length ≤ gain.length) →
    (ci = false → gain ≠ []) →
    writeFrame ci gain Env.ok i w fr =
      ((List.range fr.length).map (fun j =>
        Event.writeEv (F.fmul (F.fin (fr.getD j 0))
          (gain.getD (if ci then i + j else 0) F.nan))), .ok (w + fr.length))
  | [], i, w, _, _ => by simp [writeFrame]
  | s :: rest, i, w, hci, hlink => by
    have hlook := gain_lookup_eq ci gain i
      (fun hc => by have := hci hc; simp at this; omega) hlink
    have hrec := writeFrame_ok ci gain rest (i + 1) (w + 1)
      (fun hc => by have := hci hc; simp at this ⊢; omega) hlink
    have henv : Env.ok.writeFail w = false := rfl
    simp only [writeFrame, hlook, henv, Bool.false_eq_true, if_false, hrec,
      Prod.mk.injEq]
    constructor
    · rw [List.length_cons, List.range_succ_eq_map]
      simp only [List.map_cons, List.map_map, List.cons.injEq]
      constructor
      · simp
      · apply List.map_congr_left
        intro j hj
        have hidx : i + 1 + j = i + (j + 1) := by omega
        simp [Function.comp, hidx]
    · simp only [List.length_cons]
      congr 1
      omega

theorem writesOf_cons_frame (l : List Event) :
    writesOf (Event.frameEv :: l) = writesOf l := rfl

theorem writesOf_cons_seek (l : List Event) :
    writesOf (Event.seekEv :: l) = writesOf l := rfl

theorem writesOf_cons_write (x : F) (l : List Event) :
    writesOf (Event.writeEv x :: l) = x :: writesOf l := rfl

theorem writesOf_map_writeEv (l : List ℕ) (g : ℕ → F) :
    writesOf (l.map (fun a => Event.writeEv (g a))) = l.map g := by
  induction l with
  | nil => rfl
  | cons a as ih =>
    simp only [List.map_cons, writesOf_cons_write, ih]

theorem applyFrames_ok (ci : Bool) (gain : List F) :
    ∀ (frames : List (List ℚ)) (w : ℕ),
    (ci = true → ∀ f ∈ frames, f.length ≤ gain.length) →
    (ci = false → gain ≠ []) →
    (applyFrames ci gain Env.ok w (frames.map .ok)).2 =
      .ok (w + (frames.map List.length).sum) ∧
    writesOf (applyFrames ci gain Env.ok w (frames.map .ok)).1 =
      (frames.map (fun fr => (List.range fr.length).map (fun j =>
        F.fmul (F.fin (fr.getD j 0)) (gain.getD (if ci then j else 0) F.nan)))).flatten
  | [], w, _, _ => by simp [applyFrames, writesOf]
  | fr :: frs, w, hci, hlink => by
    have hwf := writeFrame_ok ci gain fr 0 w
      (fun hc => by simpa using hci hc fr (List.mem_cons_self fr frs)) hlink
    simp only [Nat.zero_add] at hwf
    have hrec := applyFrames_ok ci gain frs (w + fr.length)
      (fun hc f hf => hci hc f (List.mem_cons_of_mem fr hf)) hlink
    rcases happly : applyFrames ci gain Env.ok (w + fr.length) (frs.map .ok)
      with ⟨evs2, r⟩
    rw [happly] at hrec
    simp only at hrec
    simp only [List.map_cons, applyFrames, hwf, happly]
    constructor
    · rw [hrec.1]
      congr 1
      rw [List.sum_cons]
      omega
    · rw [List.flatten_cons, writesOf_cons_frame, writesOf_append,
        writesOf_map_writeEv (List.range fr.length)
          (fun j => F.fmul (F.fin (fr.getD j 0))
            (gain.getD (if ci then j else 0) F.nan)),
        hrec.2]

theorem frameResults_ok_length (n : ℕ) :
    ∀ (xs : Source) (fr : List ℚ), .ok fr ∈ frameResults n xs → fr.length = n
  | [], fr => by simp [frameResults]
  | x :: rest, fr => by
    rw [frameResults]
    by_cases h0 : n = 0
    · rw [if_pos h0]
      intro h
      simp at h
    · rw [if_neg h0]
      cases ht : takeFrame n (x :: rest) with
      | error e =>
        intro h
        simp at h
      | ok vals =>
        intro h
        rcases List.mem_cons.1 h with h | h
        · injection h with h
          subst h
          exact takeFrame_ok_length n _ _ ht
        · exact frameResults_ok_length n ((x :: rest).drop n) fr h
termination_by xs => xs.length
decreasing_by
  simp only [List.length_drop, List.length_cons]
  omega

theorem frameResults_error_shape (n : ℕ) :
    ∀ (xs : Source) (e : RunError), .error e ∈ frameResults n xs →
      e = .malformedStream ∨ ∃ re, e = .sourceRead re
  | [], e => by simp [frameResults]
  | x :: rest, e => by
    rw [frameResults]
    by_cases h0 : n = 0
    · rw [if_pos h0]
      intro h
      simp at h
      exact Or.inl h
    · rw [if_neg h0]
      cases ht : takeFrame n (x :: rest) with
      | error e2 =>
        intro h
        simp at h
        subst h
        exact takeFrame_error_shape n _ _ ht
      | ok vals =>
        intro h
        rcases List.mem_cons.1 h with h | h
        · simp at h
        · exact frameResults_error_shape n ((x :: rest).drop n) e h
termination_by xs => xs.length
decreasing_by
  simp only [List.length_drop, List.length_cons]
  omega

theorem writeFrame_no_oob (ci : Bool) (gain : List F) (env : Env) :
    ∀ (fr : List ℚ) (i w : ℕ),
    (ci = true → i + fr.length ≤ gain.length) →
    (ci = false → gain ≠ []) →
    (writeFrame ci gain env i w fr).2 ≠ .error .gainIndexOutOfBounds
  | [], i, w, _, _ => by simp [writeFrame]
  | s :: rest, i, w, hci, hlink => by
    have hlook := gain_lookup_eq ci gain i
      (fun hc => by have := hci hc; simp at this; omega) hlink
    have hrec := writeFrame_no_oob ci gain env rest (i + 1) (w + 1)
      (fun hc => by have := hci hc; simp at this ⊢; omega) hlink
    simp only [writeFrame, hlook]
    cases hw : env.writeFail w with
    | true => simp
    | false =>
      simp only [Bool.false_eq_true, if_false]
      rcases hcall : writeFrame ci gain env (i + 1) (w + 1) rest with ⟨evs, r⟩
      rw [hcall] at hrec
      simpa using hrec

theorem applyFrames_no_oob (ci : Bool) (gain : List F) (env : Env) :
    ∀ (frs : List (Except RunError (List ℚ))) (w : ℕ),
    (ci = true → ∀ fr, .ok fr ∈ frs → fr.length ≤ gain.length) →
    (ci = false → gain ≠ []) →
    (∀ e, .error e ∈ frs → e ≠ RunError.gainIndexOutOfBounds) →
    (applyFrames ci gain env w frs).2 ≠ .error .gainIndexOutOfBounds
  | [], w, _, _, _ => by simp [applyFrames]
  | .error e :: rest, w, _, _, herr => by
    simp only [applyFrames]
    intro h
    injection h with h
    exact herr e (List.mem_cons_self _ _) h
  | .ok fr :: rest, w, hci, hlink, herr => by
    have hwf := writeFrame_no_oob ci gain env fr 0 w
      (fun hc => by simpa using hci hc fr (List.mem_cons_self _ _)) hlink
    simp only [applyFrames]
    rcases hcall : writeFrame ci gain env 0 w fr with ⟨evs, r⟩
    rw [hcall] at hwf
    simp only at hwf
    cases r with
    | error e2 =>
      simpa using hwf
    | ok w2 =>
      have hrec := applyFrames_no_oob ci gain env rest w2
        (fun hc f hf => hci hc f (List.mem_cons_of_mem _ hf)) hlink
        (fun e he => herr e (List.mem_cons_of_mem _ he))
      rcases hcall2 : applyFrames ci gain env w2 rest with ⟨evs2, r2⟩
      rw [hcall2] at hrec
      simpa [hcall2] using hrec

theorem writeFrame_events (ci : Bool) (gain : List F) (env : Env) :
    ∀ (fr : List ℚ) (i w : ℕ), ∀ e ∈ (writeFrame ci gain env i w fr).1,
    ∃ x, e = Event.writeEv x
  | [], i, w => by simp [writeFrame]
  | s :: rest, i, w => by
    intro e he
    rcases hcall : writeFrame ci gain env (i + 1) (w + 1) rest with ⟨evs, r⟩
    simp only [writeFrame] at he
    cases hlook : (if ci then gain.get? i else gain.get? 0) with
    | none =>
      rw [hlook] at he
      simp at he
    | some g =>
      rw [hlook] at he
      cases hw : env.writeFail w with
      | true =>
        rw [hw] at he
        simp at he
      | false =>
        rw [hw] at he
        simp only [Bool.false_eq_true, if_false, hcall] at he
        rcases List.mem_cons.1 he with he | he
        · exact ⟨_, he⟩
        · exact writeFrame_events ci gain env rest (i + 1) (w + 1) e
            (by rw [hcall]; simpa using he)

theorem applyFrames_events (ci : Bool) (gain : List F) (env : Env) :
    ∀ (frs : List (Except RunError (List ℚ))) (w : ℕ),
    ∀ e ∈ (applyFrames ci gain env w frs).1,
    e = Event.frameEv ∨ ∃ x, e = Event.writeEv x
  | [], w => by simp [applyFrames]
  | .error e2 :: rest, w => by
    intro e he
    simp only [applyFrames] at he
    simp at he
    exact Or.inl he
  | .ok fr :: rest, w => by
    intro e he
    rcases hcall : writeFrame ci gain env 0 w fr with ⟨evs, r⟩
    simp only [applyFrames, hcall] at he
    cases r with
    | error e2 =>
      rcases List.mem_cons.1 he with he | he
      · exact Or.inl he
      · exact Or.inr (writeFrame_events ci gain env fr 0 w e
          (by rw [hcall]; simpa using he))
    | ok w2 =>
      simp only at he
      rcases hcall2 : applyFrames ci gain env w2 rest with ⟨evs2, r2⟩
      rw [hcall2] at he
      simp only at he
      rcases List.mem_cons.1 he with he | he
      · exact Or.inl he
      · rcases List.mem_append.1 he with he | he
        · exact Or.inr (writeFrame_events ci gain env fr 0 w e
            (by rw [hcall]; simpa using he))
        · exact applyFrames_events ci gain env rest w2 e
            (by rw [hcall2]; simpa using he)

theorem normalize_measure_error (S : Settings) (p10 : ℚ → ℚ) (fsqrt : F → F)
    (lufsM : Bool → Bool → List (List ℚ) → List F) (n : ℕ) (xs : Source)
    (env : Env) (e : RunError) (hmode : S.mode ≠ Mode.Amplitude)
    (hm : measureResult S fsqrt lufsM n xs = .error e) :
    S.normalize p10 fsqrt lufsM n xs env =
      (List.replicate (readCount xs) Event.readEv, .error e) := by
  obtain ⟨mode, t, ci, st⟩ := S
  cases mode with
  | Amplitude => exact absurd rfl hmode
  | Lufs =>
    simp only [measureResult] at hm
    cases hs : splitFrames n xs with
    | error e2 =>
      rw [hs] at hm
      simp only [Except.map] at hm
      injection hm with hm
      subst hm
      simp [Settings.normalize, hs]
    | ok frames =>
      rw [hs] at hm
      simp [Except.map] at hm
  | Rms =>
    simp only [measureResult] at hm
    simp [Settings.normalize, hm]

theorem normalize_measure_ok (S : Settings) (p10 : ℚ → ℚ) (fsqrt : F → F)
    (lufsM : Bool → Bool → List (List ℚ) → List F) (n : ℕ) (xs : Source)
    (env : Env) (m : List F) (hmode : S.mode ≠ Mode.Amplitude)
    (hm : measureResult S fsqrt lufsM n xs = .ok m) :
    S.normalize p10 fsqrt lufsM n xs env =
      (List.replicate (readCount xs) Event.readEv ++
        (runPass2 S.channel_independent n (resolveGain S p10 fsqrt m) xs env).1,
       (runPass2 S.channel_independent n (resolveGain S p10 fsqrt m) xs env).2) := by
  obtain ⟨mode, t, ci, st⟩ := S
  cases mode with
  | Amplitude => exact absurd rfl hmode
  | Lufs =>
    simp only [measureResult] at hm
    cases hs : splitFrames n xs with
    | error e2 =>
      rw [hs] at hm
      simp [Except.map] at hm
    | ok frames =>
      rw [hs] at hm
      simp only [Except.map] at hm
      injection hm with hm
      simp [Settings.normalize, hs, resolveGain, hm]
  | Rms =>
    simp only [measureResult] at hm
    simp [Settings.normalize, hm, resolveGain]

theorem runPass2_seek_fail (ci : Bool) (n : ℕ) (gain : List F) (xs : Source)
    (env : Env) (hs : env.seekFail = true) :
    runPass2 ci n gain xs env = ([], .error .seekFailed) := by
  simp [runPass2, hs]

theorem runPass2_apply_error (ci : Bool) (n : ℕ) (gain : List F) (xs : Source)
    (env : Env) (e : RunError) (evs : List Event) (hs : env.seekFail = false)
    (ha : applyFrames ci gain env 0 (frameResults n xs) = (evs, .error e)) :
    runPass2 ci n gain xs env = (Event.seekEv :: evs, .error e) := by
  simp [runPass2, hs, ha]

theorem runPass2_apply_ok (ci : Bool) (n : ℕ) (gain : List F) (xs : Source)
    (env : Env) (w : ℕ) (evs : List Event) (hs : env.seekFail = false)
    (ha : applyFrames ci gain env 0 (frameResults n xs) = (evs, .ok w)) :
    runPass2 ci n gain xs env =
      (Event.seekEv :: (evs ++ [Event.finalizeEv]),
       if env.finalizeFail then .error .finalizeFailed else .ok ()) := by
  simp [runPass2, hs, ha]

/-- Claim C8: on an interleaved stream of N channels and M complete
frames the frame iterator yields exactly M frames, each of length N,
whose concatenation is the original stream (original channel order); on
a sample count not divisible by N it yields the complete frames and then
raises the malformed-stream fault on the final partial frame instead of
yielding it. -/
theorem frame_iterator_contract (n : ℕ) (vals : List ℚ) (hn : 0 < n) :
    (∀ M, vals.length = M * n →
      frameResults n (vals.map .ok) = (chunk n vals).map .ok ∧
      (chunk n vals).length = M ∧
      (∀ f ∈ chunk n vals, f.length = n) ∧
      (chunk n vals).flatten = vals) ∧
    (¬ n ∣ vals.length →
      frameResults n (vals.map .ok) =
        (chunk n vals).map .ok ++ [.error .malformedStream] ∧
      (chunk n vals).length = vals.length / n ∧
      (∀ f ∈ chunk n vals, f.length = n) ∧
      (chunk n vals).flatten = vals.take (n * (vals.length / n))) := by
  constructor
  · intro M hM
    have hdvd : n ∣ vals.length := Dvd.intro_left M hM.symm
    refine ⟨?_, ?_, chunk_mem_length n hn vals, ?_⟩
    · rw [frameResults_pure n hn vals, if_pos hdvd, List.append_nil]
    · rw [chunk_length n hn vals, hM, Nat.mul_div_cancel M hn]
    · rw [chunk_join n hn vals, Nat.mul_div_cancel' hdvd, List.take_length]
  · intro hnd
    refine ⟨?_, chunk_length n hn vals, chunk_mem_length n hn vals,
      chunk_join n hn vals⟩
    rw [frameResults_pure n hn vals, if_neg hnd]

/-- Witness for C8 at N = 2 and the streams [1,2,3,4] (two complete
frames) and [1,2,3] (one complete frame and a partial one). -/
theorem frame_iterator_contract_witness :
    ((0 : ℕ) < 2 ∧
      (∀ M, ([1, 2, 3, 4] : List ℚ).length = M * 2 →
        frameResults 2 (([1, 2, 3, 4] : List ℚ).map .ok) =
          (chunk 2 [1, 2, 3, 4]).map .ok ∧
        (chunk 2 ([1, 2, 3, 4] : List ℚ)).length = M ∧
        (∀ f ∈ chunk 2 ([1, 2, 3, 4] : List ℚ), f.length = 2) ∧
        (chunk 2 ([1, 2, 3, 4] : List ℚ)).flatten = [1, 2, 3, 4]) ∧
      (¬ 2 ∣ ([1, 2, 3, 4] : List ℚ).length →
        frameResults 2 (([1, 2, 3, 4] : List ℚ).map .ok) =
          (chunk 2 [1, 2, 3, 4]).map .ok ++ [.error .malformedStream] ∧
        (chunk 2 ([1, 2, 3, 4] : List ℚ)).length = ([1, 2, 3, 4] : List ℚ).length / 2 ∧
        (∀ f ∈ chunk 2 ([1, 2, 3, 4] : List ℚ), f.length = 2) ∧
        (chunk 2 ([1, 2, 3, 4] : List ℚ)).flatten =
          ([1, 2, 3, 4] : List ℚ).take (2 * (([1, 2, 3, 4] : List ℚ).length / 2)))) :=
  ⟨by norm_num, frame_iterator_contract 2 [1, 2, 3, 4] (by norm_num)⟩

/-- Claim C1: in pass 2, for every frame yielded by the frame iterator
and every channel index i of the frame, the sample written is the input
sample multiplied by gain[i] in channel-independent mode and by gain[0]
in linked mode (the same multiplier value for every channel of every
frame); samples are written in the original channel order and the output
sample count equals the input sample count. -/
theorem pass2_applies_gain (ci : Bool) (gain : List F) (n : ℕ)
    (vals : List ℚ) (hn : 0 < n) (hdvd : n ∣ vals.length)
    (hg : if ci then n ≤ gain.length else gain ≠ []) :
    (runPass2 ci n gain (vals.map .ok) Env.ok).2 = .ok () ∧
    (chunk n vals).flatten = vals ∧
    (∀ f ∈ chunk n vals, f.length = n) ∧
    writesOf (runPass2 ci n gain (vals.map .ok) Env.ok).1 =
      ((chunk n vals).map (fun fr => (List.range n).map (fun i =>
        F.fmul (F.fin (fr.getD i 0))
          (gain.getD (if ci then i else 0) F.nan)))).flatten ∧
    (writesOf (runPass2 ci n gain (vals.map .ok) Env.ok).1).length =
      vals.length := by
  have hfr : frameResults n (vals.map .ok) = (chunk n vals).map .ok := by
    rw [frameResults_pure n hn vals, if_pos hdvd, List.append_nil]
  have hmem := chunk_mem_length n hn vals
  have hci : ci = true → ∀ f ∈ chunk n vals, f.length ≤ gain.length := by
    intro hc f hf
    rw [hmem f hf]
    rw [hc] at hg
    simpa using hg
  have hlink : ci = false → gain ≠ [] := by
    intro hc
    rw [hc] at hg
    simpa using hg
  have happ := applyFrames_ok ci gain (chunk n vals) 0 hci hlink
  rcases ha : applyFrames ci gain Env.ok 0 ((chunk n vals).map .ok)
    with ⟨evs, r⟩
  rw [ha] at happ
  simp only at happ
  have hrun := runPass2_apply_ok ci n gain (vals.map .ok) Env.ok
    (0 + ((chunk n vals).map List.length).sum) evs rfl
    (by rw [hfr, ha, happ.1])
  have hwrites : writesOf (runPass2 ci n gain (vals.map .ok) Env.ok).1 =
      writesOf evs := by
    rw [hrun]
    simp only [writesOf_cons_seek, writesOf_append]
    simp [writesOf]
  have hmap : (chunk n vals).map (fun fr => (List.range fr.length).map
        (fun j => F.fmul (F.fin (fr.getD j 0))
          (gain.getD (if ci then j else 0) F.nan))) =
      (chunk n vals).map (fun fr => (List.range n).map
        (fun i => F.fmul (F.fin (fr.getD i 0))
          (gain.getD (if ci then i else 0) F.nan))) := by
    apply List.map_congr_left
    intro f hf
    rw [hmem f hf]
  refine ⟨?_, ?_, hmem, ?_, ?_⟩
  · rw [hrun]
    simp [Env.ok]
  · rw [chunk_join n hn vals, Nat.mul_div_cancel' hdvd, List.take_length]
  · rw [hwrites, happ.2, hmap]
  · rw [hwrites, happ.2]
    rw [List.length_flatten, List.map_map]
    have hconst : (chunk n vals).map (List.length ∘ fun fr =>
          (List.range fr.length).map (fun j => F.fmul (F.fin (fr.getD j 0))
            (gain.getD (if ci then j else 0) F.nan))) =
        (chunk n vals).map (fun _ => n) := by
      apply List.map_congr_left
      intro f hf
      simp [hmem f hf]
    rw [hconst, List.map_const', List.sum_replicate, smul_eq_mul,
      chunk_length n hn vals, Nat.div_mul_cancel hdvd]

/-- Witness for C1: two channels, linked mode with gain vector of length
one, input [1,2,3,4]. -/
theorem pass2_applies_gain_witness :
    ((0 : ℕ) < 2 ∧ (2 : ℕ) ∣ ([1, 2, 3, 4] : List ℚ).length ∧
      (if false then 2 ≤ ([F.fin 2] : List F).length
        else ([F.fin 2] : List F) ≠ [])) ∧
    ((runPass2 false 2 [F.fin 2] (([1, 2, 3, 4] : List ℚ).map .ok)
        Env.ok).2 = .ok () ∧
      (chunk 2 ([1, 2, 3, 4] : List ℚ)).flatten = [1, 2, 3, 4] ∧
      (∀ f ∈ chunk 2 ([1, 2, 3, 4] : List ℚ), f.length = 2) ∧
      writesOf (runPass2 false 2 [F.fin 2]
          (([1, 2, 3, 4] : List ℚ).map .ok) Env.ok).1 =
        ((chunk 2 ([1, 2, 3, 4] : List ℚ)).map
          (fun fr => (List.range 2).map (fun i =>
            F.fmul (F.fin (fr.getD i 0))
              (([F.fin 2] : List F).getD (if false then i else 0)
                F.nan)))).flatten ∧
      (writesOf (runPass2 false 2 [F.fin 2]
          (([1, 2, 3, 4] : List ℚ).map .ok) Env.ok).1).length =
        ([1, 2, 3, 4] : List ℚ).length) :=
  ⟨⟨by norm_num, by norm_num, by simp⟩,
    pass2_applies_gain false [F.fin 2] 2 [1, 2, 3, 4] (by norm_num)
      (by norm_num) (by simp)⟩

/-- Claim C9: pass 2 indexes the gain vector without a bounds check; the
out-of-bounds panic branch of `gain[i]` (channel-independent mode) is
unreachable under the precondition that the analyzer returned exactly one
measurement per channel (gain length = channel count), and the panic
branch of `gain[0]` (linked mode) is unreachable under the precondition
that the measurement result is non-empty — for every source stream and
every environment. -/
theorem gain_indexing_safe (ci : Bool) (gain : List F) (n : ℕ) (xs : Source)
    (env : Env) (hg : if ci then gain.length = n else gain ≠ []) :
    (runPass2 ci n gain xs env).2 ≠ .error .gainIndexOutOfBounds := by
  cases hs : env.seekFail with
  | true =>
    rw [runPass2_seek_fail ci n gain xs env hs]
    simp
  | false =>
    have hci : ci = true → ∀ fr, .ok fr ∈ frameResults n xs →
        fr.length ≤ gain.length := by
      intro hc fr hfr
      rw [hc] at hg
      simp only [if_true] at hg
      rw [frameResults_ok_length n xs fr hfr, ← hg]
    have hlink : ci = false → gain ≠ [] := by
      intro hc
      rw [hc] at hg
      simpa using hg
    have herr : ∀ e, .error e ∈ frameResults n xs →
        e ≠ RunError.gainIndexOutOfBounds := by
      intro e he
      rcases frameResults_error_shape n xs e he with h | ⟨re, h⟩ <;> simp [h]
    have hno := applyFrames_no_oob ci gain env (frameResults n xs) 0
      hci hlink herr
    rcases ha : applyFrames ci gain env 0 (frameResults n xs) with ⟨evs, r⟩
    rw [ha] at hno
    simp only at hno
    cases r with
    | error e =>
      rw [runPass2_apply_error ci n gain xs env e evs hs ha]
      simpa using hno
    | ok w =>
      rw [runPass2_apply_ok ci n gain xs env w evs hs ha]
      cases env.finalizeFail <;> simp

/-- Witness for C9: linked mode with a singleton gain vector on the
concrete 2-channel stream. -/
theorem gain_indexing_safe_witness :
    (if false then ([F.fin 2] : List F).length = 2
      else ([F.fin 2] : List F) ≠ []) ∧
    (runPass2 false 2 [F.fin 2] src7 Env.ok).2 ≠
      .error .gainIndexOutOfBounds :=
  ⟨by simp, gain_indexing_safe false [F.fin 2] 2 src7 Env.ok (by simp)⟩

/-- Claim C2: in RMS mode the gain resolved from a measurement vector
`rms` and target `t` is, at every index i, `10^(t/20) / rms[i]` — divisor
20, no square root — and the gain vector has one entry per measurement. -/
theorem rms_gain_formula (p10 : ℚ → ℚ) (target : ℚ) (rms : List F) (i : ℕ)
    (h : i < rms.length) :
    (rmsGain p10 target rms).length = rms.length ∧
    (rmsGain p10 target rms).getD i F.nan = specRmsGainAt p10 target rms i := by
  constructor
  · simp [rmsGain]
  · have hx : rms[i]? = some (rms.get ⟨i, h⟩) := List.getElem?_eq_getElem h
    simp [rmsGain, specRmsGainAt, List.getD_eq_getElem?_getD,
      List.getElem?_map, hx]

/-- Witness for C2 at the measurement vector [1, 2] and index 0. -/
theorem rms_gain_formula_witness :
    (0 : ℕ) < ([F.fin 1, F.fin 2] : List F).length ∧
    ((rmsGain p10w 0 [F.fin 1, F.fin 2]).length =
        ([F.fin 1, F.fin 2] : List F).length ∧
      (rmsGain p10w 0 [F.fin 1, F.fin 2]).getD 0 F.nan =
        specRmsGainAt p10w 0 [F.fin 1, F.fin 2] 0) :=
  ⟨by norm_num, rms_gain_formula p10w 0 [F.fin 1, F.fin 2] 0 (by norm_num)⟩

/-- Claim C3: in Integrated-Loudness mode the gain resolved from a
measurement vector `loudness` and target `t` is, at every index i,
`sqrt(10^(t/10) / loudness[i])` — divisor 10, square root applied — and
the gain vector has one entry per measurement. -/
theorem lufs_gain_formula (p10 : ℚ → ℚ) (fsqrt : F → F) (target : ℚ)
    (loudness : List F) (i : ℕ) (h : i < loudness.length) :
    (lufsGain p10 fsqrt target loudness).length = loudness.length ∧
    (lufsGain p10 fsqrt target loudness).getD i F.nan =
      specLufsGainAt p10 fsqrt target loudness i := by
  constructor
  · simp [lufsGain]
  · have hx : loudness[i]? = some (loudness.get ⟨i, h⟩) :=
      List.getElem?_eq_getElem h
    simp [lufsGain, specLufsGainAt, List.getD_eq_getElem?_getD,
      List.getElem?_map, hx]

/-- Witness for C3 at the measurement vector [1, 2] and index 1. -/
theorem lufs_gain_formula_witness :
    (1 : ℕ) < ([F.fin 1, F.fin 2] : List F).length ∧
    ((lufsGain p10w fsqrtw 0 [F.fin 1, F.fin 2]).length =
        ([F.fin 1, F.fin 2] : List F).length ∧
      (lufsGain p10w fsqrtw 0 [F.fin 1, F.fin 2]).getD 1 F.nan =
        specLufsGainAt p10w fsqrtw 0 [F.fin 1, F.fin 2] 1) :=
  ⟨by norm_num,
    lufs_gain_formula p10w fsqrtw 0 [F.fin 1, F.fin 2] 1 (by norm_num)⟩

/-- Claim C5: for every input, environment and settings whose algorithm
kind is Amplitude, normalize fails with the unimplemented-capability
fault (the `panic!` of the Amplitude branch); it never returns success,
so it cannot silently return zero, a partial result, or fall back to
another algorithm. -/
theorem amplitude_unimplemented (S : Settings) (p10 : ℚ → ℚ) (fsqrt : F → F)
    (lufsM : Bool → Bool → List (List ℚ) → List F) (n : ℕ) (xs : Source)
    (env : Env) (hm : S.mode = Mode.Amplitude) :
    (S.normalize p10 fsqrt lufsM n xs env).2 = .error .unimplemented := by
  obtain ⟨mode, t, ci, st⟩ := S
  cases hm
  rfl

/-- Witness for C5 on a concrete Amplitude-mode run. -/
theorem amplitude_unimplemented_witness :
    ((⟨Mode.Amplitude, 0, true, false⟩ : Settings)).mode = Mode.Amplitude ∧
    ((⟨Mode.Amplitude, 0, true, false⟩ : Settings).normalize p10w fsqrtw lufsw
      2 src7 Env.ok).2 = .error .unimplemented :=
  ⟨rfl, amplitude_unimplemented _ p10w fsqrtw lufsw 2 src7 Env.ok rfl⟩

/-- Claim C10: in Amplitude mode the run aborts before any measurement
read, any sample write, and any finalize invocation: the trace is empty,
so the output sink receives no writes at all. -/
theorem amplitude_no_effects (S : Settings) (p10 : ℚ → ℚ) (fsqrt : F → F)
    (lufsM : Bool → Bool → List (List ℚ) → List F) (n : ℕ) (xs : Source)
    (env : Env) (hm : S.mode = Mode.Amplitude) :
    (S.normalize p10 fsqrt lufsM n xs env).1 = [] ∧
    writesOf (S.normalize p10 fsqrt lufsM n xs env).1 = [] ∧
    Event.readEv ∉ (S.normalize p10 fsqrt lufsM n xs env).1 ∧
    Event.finalizeEv ∉ (S.normalize p10 fsqrt lufsM n xs env).1 := by
  obtain ⟨mode, t, ci, st⟩ := S
  cases hm
  refine ⟨rfl, rfl, ?_, ?_⟩ <;> simp [Settings.normalize]

/-- Witness for C10 on a concrete Amplitude-mode run. -/
theorem amplitude_no_effects_witness :
    ((⟨Mode.Amplitude, 0, true, false⟩ : Settings)).mode = Mode.Amplitude ∧
    (((⟨Mode.Amplitude, 0, true, false⟩ : Settings).normalize p10w fsqrtw
        lufsw 2 src7 Env.ok).1 = [] ∧
      writesOf ((⟨Mode.Amplitude, 0, true, false⟩ : Settings).normalize p10w
        fsqrtw lufsw 2 src7 Env.ok).1 = [] ∧
      Event.readEv ∉ ((⟨Mode.Amplitude, 0, true, false⟩ : Settings).normalize
        p10w fsqrtw lufsw 2 src7 Env.ok).1 ∧
      Event.finalizeEv ∉ ((⟨Mode.Amplitude, 0, true, false⟩ :
        Settings).normalize p10w fsqrtw lufsw 2 src7 Env.ok).1) :=
  ⟨rfl, amplitude_no_effects _ p10w fsqrtw lufsw 2 src7 Env.ok rfl⟩

theorem rms_analyze_src7 (fsqrt : F → F) (h2 : fsqrt (F.fin 1) = F.fin 1)
    (h3 : fsqrt (F.fin 4) = F.fin 2) :
    rmsAnalyze fsqrt true 2 src7 = .ok [F.fin 1, F.fin 2] := by
  simp [rmsAnalyze, splitFrames, src7, frameResults, takeFrame,
    collectFrames, sumSquares, List.range_succ, Except.map]
  norm_num [F.fdiv, h2, h3]

theorem rms_gain_src7 (p10 : ℚ → ℚ) (h1 : p10 0 = 1) :
    rmsGain p10 0 [F.fin 1, F.fin 2] = [F.fin 1, F.fin (1/2)] := by
  simp [rmsGain, F.fdiv, h1]

theorem runPass2_src7 :
    (runPass2 true 2 [F.fin 1, F.fin (1/2)] src7 Env.ok).2 = .ok () ∧
    writesOf (runPass2 true 2 [F.fin 1, F.fin (1/2)] src7 Env.ok).1 =
      List.replicate 8 (F.fin 1) := by
  constructor <;>
    simp [runPass2, Env.ok, src7, frameResults, takeFrame, applyFrames,
      writeFrame, F.fmul, Except.map, writesOf, List.replicate]

/-- Claim C7: the end-to-end scenario — 2-channel, 4-frame input
[(1,2),(1,2),(1,2),(1,2)], RMS mode, target 0 dB, channel-independent:
the measured RMS is (1,2), the resolved gain vector is (1, 0.5), the run
succeeds and the output stream is [(1,1),(1,1),(1,1),(1,1)].  The
hypotheses pin the abstract powf/sqrt at values where IEEE 754 is exact:
powf(10,0) = 1, sqrt(1) = 1, sqrt(4) = 2. -/
theorem end_to_end_rms_scenario (p10 : ℚ → ℚ) (fsqrt : F → F)
    (lufsM : Bool → Bool → List (List ℚ) → List F)
    (h1 : p10 0 = 1) (h2 : fsqrt (F.fin 1) = F.fin 1)
    (h3 : fsqrt (F.fin 4) = F.fin 2) :
    rmsAnalyze fsqrt true 2 src7 = .ok [F.fin 1, F.fin 2] ∧
    rmsGain p10 0 [F.fin 1, F.fin 2] = [F.fin 1, F.fin (1/2)] ∧
    (Settings.normalize ⟨Mode.Rms, 0, true, false⟩ p10 fsqrt lufsM 2 src7
        Env.ok).2 = .ok () ∧
    writesOf (Settings.normalize ⟨Mode.Rms, 0, true, false⟩ p10 fsqrt lufsM
        2 src7 Env.ok).1 = List.replicate 8 (F.fin 1) := by
  have hm := rms_analyze_src7 fsqrt h2 h3
  have hg := rms_gain_src7 p10 h1
  have hmeas : measureResult ⟨Mode.Rms, 0, true, false⟩ fsqrt lufsM 2 src7 =
      .ok [F.fin 1, F.fin 2] := by
    simpa [measureResult] using hm
  have hnorm := normalize_measure_ok ⟨Mode.Rms, 0, true, false⟩ p10 fsqrt
    lufsM 2 src7 Env.ok [F.fin 1, F.fin 2] (by simp) hmeas
  have hgain : resolveGain ⟨Mode.Rms, 0, true, false⟩ p10 fsqrt
      [F.fin 1, F.fin 2] = [F.fin 1, F.fin (1/2)] := by
    simpa [resolveGain] using hg
  rw [hgain] at hnorm
  refine ⟨hm, hg, ?_, ?_⟩
  · rw [hnorm]
    exact runPass2_src7.1
  · rw [hnorm]
    simp only [writesOf_append, writesOf_replicate_read, List.nil_append]
    exact runPass2_src7.2

/-- Witness for C7 with the concrete powf/sqrt instances. -/
theorem end_to_end_rms_scenario_witness :
    (p10w 0 = 1 ∧ fsqrtw (F.fin 1) = F.fin 1 ∧ fsqrtw (F.fin 4) = F.fin 2) ∧
    (rmsAnalyze fsqrtw true 2 src7 = .ok [F.fin 1, F.fin 2] ∧
      rmsGain p10w 0 [F.fin 1, F.fin 2] = [F.fin 1, F.fin (1/2)] ∧
      (Settings.normalize ⟨Mode.Rms, 0, true, false⟩ p10w fsqrtw lufsw 2 src7
          Env.ok).2 = .ok () ∧
      writesOf (Settings.normalize ⟨Mode.Rms, 0, true, false⟩ p10w fsqrtw
          lufsw 2 src7 Env.ok).1 = List.replicate 8 (F.fin 1)) :=
  ⟨⟨by norm_num [p10w], by norm_num [fsqrtw], by norm_num [fsqrtw]⟩,
    end_to_end_rms_scenario p10w fsqrtw lufsw (by norm_num [p10w])
      (by norm_num [fsqrtw]) (by norm_num [fsqrtw])⟩

theorem frameResults_silence (m : ℕ) :
    frameResults 1 (List.replicate m (Except.ok (0 : ℚ))) =
      List.replicate m (.ok [0]) := by
  induction m with
  | zero => simp [frameResults]
  | succ k ih =>
    rw [List.replicate_succ, frameResults]
    simp only [takeFrame, Except.map, List.drop_succ_cons, List.drop_zero, ih,
      List.replicate_succ]
    rfl

theorem collectFrames_replicate (m : ℕ) (fr : List ℚ) :
    collectFrames (List.replicate m (.ok fr)) = .ok (List.replicate m fr) := by
  induction m with
  | zero => rfl
  | succ k ih => simp [List.replicate_succ, collectFrames, ih, Except.map]

theorem flatten_replicate_singleton (m : ℕ) (x : F) :
    (List.replicate m [x]).flatten = List.replicate m x := by
  induction m with
  | zero => rfl
  | succ k ih => simp [List.replicate_succ, ih]

theorem rmsAnalyze_silence (fsqrt : F → F) (hs : fsqrt (F.fin 0) = F.fin 0)
    (m : ℕ) (hm : 0 < m) :
    rmsAnalyze fsqrt false 1 (List.replicate m (.ok 0)) = .ok [F.fin 0] := by
  have hmq : ((List.replicate m ([0] : List ℚ)).length : ℚ) ≠ 0 := by
    simp
    omega
  simp [rmsAnalyze, splitFrames, frameResults_silence, collectFrames_replicate,
    Except.map, F.fdiv, hmq, hs, hm.ne']

/-- Counterexample to claim C4 as stated: an all-silence 1-channel,
2-frame input in RMS mode measures [0]; with the finite positive target
20 dB (powf(10, 20/20) = 10, exact in IEEE 754) the run raises no
degenerate-measurement fault at all — it returns success, and the output
stream silently receives the two NaN samples produced by 0 × ∞. -/
theorem zero_measurement_counterexample :
    rmsAnalyze fsqrtw false 1 [.ok 0, .ok 0] = .ok [F.fin 0] ∧
    (Settings.normalize ⟨Mode.Rms, 20, false, false⟩ p10w fsqrtw lufsw 1
        [.ok 0, .ok 0] Env.ok).2 = .ok () ∧
    writesOf (Settings.normalize ⟨Mode.Rms, 20, false, false⟩ p10w fsqrtw
        lufsw 1 [.ok 0, .ok 0] Env.ok).1 = [F.nan, F.nan] := by
  refine ⟨?_, ?_, ?_⟩
  · norm_num [rmsAnalyze, splitFrames, frameResults, takeFrame,
      collectFrames, Except.map, F.fdiv, fsqrtw, sumSquares]
  · norm_num [Settings.normalize, rmsAnalyze, splitFrames, frameResults,
      takeFrame, collectFrames, Except.map, F.fdiv, fsqrtw, p10w, rmsGain,
      runPass2, Env.ok, applyFrames, writeFrame, F.fmul, readCount,
      sumSquares]
  · have htr : (Settings.normalize ⟨Mode.Rms, 20, false, false⟩ p10w fsqrtw
        lufsw 1 [.ok 0, .ok 0] Env.ok).1 =
        [Event.readEv, Event.readEv, Event.seekEv, Event.frameEv,
          Event.writeEv F.nan, Event.frameEv, Event.writeEv F.nan,
          Event.finalizeEv] := by
      norm_num [Settings.normalize, rmsAnalyze, splitFrames, frameResults,
        takeFrame, collectFrames, Except.map, F.fdiv, fsqrtw, p10w, rmsGain,
        runPass2, Env.ok, applyFrames, writeFrame, F.fmul, readCount,
        sumSquares, List.replicate]
    rw [htr]
    rfl

/-- Claim C4 amended: when the RMS measurement of a channel is zero (as
for all-silence input) and the target is any level with a positive powf
value, gain resolution does not fail: the division is performed
unchecked, the resolved gain is +∞, the run completes successfully, and
one NaN sample (0 × ∞) is written to the output per input sample. -/
theorem zero_measurement_infinite_gain (p10 : ℚ → ℚ) (fsqrt : F → F)
    (lufsM : Bool → Bool → List (List ℚ) → List F) (target : ℚ) (m : ℕ)
    (hm : 0 < m) (hs : fsqrt (F.fin 0) = F.fin 0)
    (hp : 0 < p10 (target / 20)) :
    rmsAnalyze fsqrt false 1 (List.replicate m (.ok 0)) = .ok [F.fin 0] ∧
    rmsGain p10 target [F.fin 0] = [F.inf] ∧
    (Settings.normalize ⟨Mode.Rms, target, false, false⟩ p10 fsqrt lufsM 1
        (List.replicate m (.ok 0)) Env.ok).2 = .ok () ∧
    writesOf (Settings.normalize ⟨Mode.Rms, target, false, false⟩ p10 fsqrt
        lufsM 1 (List.replicate m (.ok 0)) Env.ok).1 =
      List.replicate m F.nan := by
  have hana := rmsAnalyze_silence fsqrt hs m hm
  have hgain : rmsGain p10 target [F.fin 0] = [F.inf] := by
    simp [rmsGain, F.fdiv, hp]
  have hmeas : measureResult ⟨Mode.Rms, target, false, false⟩ fsqrt lufsM 1
      (List.replicate m (.ok 0)) = .ok [F.fin 0] := by
    simpa [measureResult] using hana
  have hnorm := normalize_measure_ok ⟨Mode.Rms, target, false, false⟩ p10
    fsqrt lufsM 1 (List.replicate m (.ok 0)) Env.ok [F.fin 0] (by simp) hmeas
  have hres : resolveGain ⟨Mode.Rms, target, false, false⟩ p10 fsqrt
      [F.fin 0] = [F.inf] := by
    simpa [resolveGain] using hgain
  rw [hres] at hnorm
  have happly := applyFrames_ok false [F.inf] (List.replicate m [0]) 0
    (by simp) (by simp)
  rcases ha : applyFrames false [F.inf] Env.ok 0
      ((List.replicate m ([0] : List ℚ)).map .ok) with ⟨evs, r⟩
  rw [ha] at happly
  simp only at happly
  have hfr : frameResults 1 (List.replicate m (Except.ok (0 : ℚ))) =
      (List.replicate m ([0] : List ℚ)).map .ok := by
    rw [frameResults_silence, List.map_replicate]
  have hrun := runPass2_apply_ok false 1 [F.inf]
    (List.replicate m (.ok 0)) Env.ok
    (0 + ((List.replicate m ([0] : List ℚ)).map List.length).sum) evs rfl
    (by rw [hfr, ha, happly.1])
  have hwr : writesOf evs = List.replicate m F.nan := by
    rw [happly.2]
    have : (List.replicate m ([0] : List ℚ)).map (fun fr =>
        (List.range fr.length).map (fun j => F.fmul (F.fin (fr.getD j 0))
          (([F.inf] : List F).getD (if false then j else 0) F.nan))) =
        List.replicate m [F.nan] := by
      rw [List.map_replicate]
      norm_num [List.range_succ, F.fmul]
    rw [this, flatten_replicate_singleton]
  refine ⟨hana, hgain, ?_, ?_⟩
  · rw [hnorm, hrun]
    simp [Env.ok]
  · rw [hnorm]
    simp only [writesOf_append, writesOf_replicate_read, List.nil_append]
    rw [hrun]
    simp only [writesOf_cons_seek, writesOf_append, hwr]
    simp [writesOf]

/-- Witness for the amended C4 at m = 2 frames and target 20 dB. -/
theorem zero_measurement_infinite_gain_witness :
    ((0 : ℕ) < 2 ∧ fsqrtw (F.fin 0) = F.fin 0 ∧ 0 < p10w ((20 : ℚ) / 20)) ∧
    (rmsAnalyze fsqrtw false 1 (List.replicate 2 (.ok 0)) = .ok [F.fin 0] ∧
      rmsGain p10w 20 [F.fin 0] = [F.inf] ∧
      (Settings.normalize ⟨Mode.Rms, 20, false, false⟩ p10w fsqrtw lufsw 1
          (List.replicate 2 (.ok 0)) Env.ok).2 = .ok () ∧
      writesOf (Settings.normalize ⟨Mode.Rms, 20, false, false⟩ p10w fsqrtw
          lufsw 1 (List.replicate 2 (.ok 0)) Env.ok).1 =
        List.replicate 2 F.nan) :=
  ⟨⟨by norm_num, by norm_num [fsqrtw], by norm_num [p10w]⟩,
    zero_measurement_infinite_gain p10w fsqrtw lufsw 20 2 (by norm_num)
      (by norm_num [fsqrtw]) (by norm_num [p10w])⟩

theorem linearTrace_reads (k : ℕ) :
    linearTrace (List.replicate k Event.readEv) :=
  ⟨k, [], [], by simp, Or.inl rfl, Or.inl rfl⟩

theorem linearTrace_full (k : ℕ) (b2 tl : List Event)
    (hb : ∀ e ∈ b2, e = Event.frameEv ∨ ∃ x, e = Event.writeEv x)
    (htl : tl = [] ∨ tl = [Event.finalizeEv]) :
    linearTrace (List.replicate k Event.readEv ++ (Event.seekEv :: b2) ++ tl) :=
  ⟨k, Event.seekEv :: b2, tl, rfl, Or.inr ⟨b2, rfl, hb⟩, htl⟩

theorem priorStepsOk_iff_of_measure_ok (S : Settings) (p10 : ℚ → ℚ)
    (fsqrt : F → F) (lufsM : Bool → Bool → List (List ℚ) → List F) (n : ℕ)
    (xs : Source) (env : Env) (m : List F)
    (hm : measureResult S fsqrt lufsM n xs = .ok m) :
    priorStepsOk S p10 fsqrt lufsM n xs env ↔
      (env.seekFail = false ∧
        ∃ w, (applyFrames S.channel_independent (resolveGain S p10 fsqrt m)
          env 0 (frameResults n xs)).2 = .ok w) := by
  constructor
  · rintro ⟨m2, hm2, hsf, hw⟩
    rw [hm] at hm2
    injection hm2 with h
    subst h
    exact ⟨hsf, hw⟩
  · rintro ⟨hsf, hw⟩
    exact ⟨m, hm, hsf, hw⟩

theorem priorStepsOk_not_of_measure_error (S : Settings) (p10 : ℚ → ℚ)
    (fsqrt : F → F) (lufsM : Bool → Bool → List (List ℚ) → List F) (n : ℕ)
    (xs : Source) (env : Env) (e : RunError)
    (hm : measureResult S fsqrt lufsM n xs = .error e) :
    ¬ priorStepsOk S p10 fsqrt lufsM n xs env := by
  rintro ⟨m2, hm2, _, _⟩
  rw [hm] at hm2
  exact absurd hm2 (by simp)

theorem finalize_not_mem_applyEvents (ci : Bool) (gain : List F) (env : Env)
    (frs : List (Except RunError (List ℚ))) (w : ℕ) :
    Event.finalizeEv ∉ (applyFrames ci gain env w frs).1 := by
  intro h
  rcases applyFrames_events ci gain env frs w Event.finalizeEv h with h2 | ⟨x, h2⟩ <;>
    simp at h2

theorem read_not_mem_applyEvents (ci : Bool) (gain : List F) (env : Env)
    (frs : List (Except RunError (List ℚ))) (w : ℕ) :
    Event.readEv ∉ (applyFrames ci gain env w frs).1 := by
  intro h
  rcases applyFrames_events ci gain env frs w Event.readEv h with h2 | ⟨x, h2⟩ <;>
    simp at h2

theorem count_finalize_replicate_read (k : ℕ) :
    (List.replicate k Event.readEv).count Event.finalizeEv = 0 := by
  apply List.count_eq_zero.2
  simp [List.mem_replicate]

/-- Claim C6: the orchestrator is strictly linear — the trace of every
run is measurement reads, then at most one rewind, then only pass-2
frame/write events, then at most one finalize invocation; finalize is
invoked exactly once if and only if every prior step (measurement,
rewind, all frame reads, gain lookups and sample writes) succeeded, and
when invoked it is the last action; the run returns success exactly when
every prior step and the finalize operation succeed; a failing
measurement, rewind, or pass-2 step makes the run return that step's
error with finalize never invoked. -/
theorem orchestrator_linear (S : Settings) (p10 : ℚ → ℚ) (fsqrt : F → F)
    (lufsM : Bool → Bool → List (List ℚ) → List F) (n : ℕ) (xs : Source)
    (env : Env) :
    linearTrace (S.normalize p10 fsqrt lufsM n xs env).1 ∧
    (S.normalize p10 fsqrt lufsM n xs env).1.count Event.finalizeEv ≤ 1 ∧
    (Event.finalizeEv ∈ (S.normalize p10 fsqrt lufsM n xs env).1 ↔
      priorStepsOk S p10 fsqrt lufsM n xs env) ∧
    (priorStepsOk S p10 fsqrt lufsM n xs env →
      (S.normalize p10 fsqrt lufsM n xs env).1.getLast? =
        some Event.finalizeEv) ∧
    ((S.normalize p10 fsqrt lufsM n xs env).2 = .ok () ↔
      (priorStepsOk S p10 fsqrt lufsM n xs env ∧
        env.finalizeFail = false)) ∧
    (∀ e, measureResult S fsqrt lufsM n xs = .error e →
      (S.normalize p10 fsqrt lufsM n xs env).2 = .error e) ∧
    (∀ m, measureResult S fsqrt lufsM n xs = .ok m → env.seekFail = true →
      (S.normalize p10 fsqrt lufsM n xs env).2 = .error .seekFailed) ∧
    (∀ m e evs, measureResult S fsqrt lufsM n xs = .ok m →
      env.seekFail = false →
      applyFrames S.channel_independent (resolveGain S p10 fsqrt m) env 0
        (frameResults n xs) = (evs, .error e) →
      (S.normalize p10 fsqrt lufsM n xs env).2 = .error e) := by
  by_cases hA : S.mode = Mode.Amplitude
  · have hnorm : S.normalize p10 fsqrt lufsM n xs env =
        ([], .error .unimplemented) := by
      obtain ⟨mode, t, ci, st⟩ := S
      cases hA
      rfl
    have hmeas : measureResult S fsqrt lufsM n xs = .error .unimplemented := by
      obtain ⟨mode, t, ci, st⟩ := S
      cases hA
      rfl
    have hnp := priorStepsOk_not_of_measure_error S p10 fsqrt lufsM n xs env
      _ hmeas
    rw [hnorm]
    refine ⟨⟨0, [], [], by simp, Or.inl rfl, Or.inl rfl⟩, by simp,
      by simp [hnp], fun h => absurd h hnp, by simp [hnp], ?_, ?_, ?_⟩
    · intro e he
      rw [hmeas] at he
      injection he with he
      rw [he]
    · intro m hm
      rw [hmeas] at hm
      exact absurd hm (by simp)
    · intro m e evs hm
      rw [hmeas] at hm
      exact absurd hm (by simp)
  · cases hmr : measureResult S fsqrt lufsM n xs with
    | error e0 =>
      have hnorm := normalize_measure_error S p10 fsqrt lufsM n xs env e0
        hA hmr
      have hnp := priorStepsOk_not_of_measure_error S p10 fsqrt lufsM n xs env
        e0 hmr
      rw [hnorm]
      refine ⟨linearTrace_reads _, by simp [count_finalize_replicate_read],
        by simp [List.mem_replicate, hnp],
        fun h => absurd h hnp, by simp [hnp], ?_, ?_, ?_⟩
      · intro e he
        injection he with he
        rw [he]
      · intro m2 hm2
        exact absurd hm2 (by simp)
      · intro m2 e evs hm2
        exact absurd hm2 (by simp)
    | ok m =>
      have hnorm := normalize_measure_ok S p10 fsqrt lufsM n xs env m hA hmr
      have hiff := priorStepsOk_iff_of_measure_ok S p10 fsqrt lufsM n xs env
        m hmr
      cases hsf : env.seekFail with
      | true =>
        have hrun := runPass2_seek_fail S.channel_independent n
          (resolveGain S p10 fsqrt m) xs env hsf
        rw [hrun] at hnorm
        have hnp : ¬ priorStepsOk S p10 fsqrt lufsM n xs env := by
          rw [hiff]
          rintro ⟨hf, _⟩
          rw [hsf] at hf
          exact absurd hf (by simp)
        rw [hnorm]
        refine ⟨by simpa using linearTrace_reads (readCount xs),
          by simp [count_finalize_replicate_read],
          by simp [List.mem_replicate, hnp], fun h => absurd h hnp,
          by simp [hnp], ?_, ?_, ?_⟩
        · intro e he
          exact absurd he (by simp)
        · intro m2 hm2 _
          rfl
        · intro m2 e evs hm2 hsf2 ha2
          exact absurd hsf2 (by simp)
      | false =>
        rcases ha : applyFrames S.channel_independent
            (resolveGain S p10 fsqrt m) env 0 (frameResults n xs)
          with ⟨evs, r⟩
        have hfin := finalize_not_mem_applyEvents S.channel_independent
          (resolveGain S p10 fsqrt m) env (frameResults n xs) 0
        have hread := read_not_mem_applyEvents S.channel_independent
          (resolveGain S p10 fsqrt m) env (frameResults n xs) 0
        rw [ha] at hfin hread
        simp only at hfin hread
        have hshape : ∀ e ∈ evs, e = Event.frameEv ∨ ∃ x, e = Event.writeEv x := by
          intro e he
          exact applyFrames_events S.channel_independent
            (resolveGain S p10 fsqrt m) env (frameResults n xs) 0 e
            (by rw [ha]; exact he)
        cases r with
        | error e1 =>
          have hrun := runPass2_apply_error S.channel_independent n
            (resolveGain S p10 fsqrt m) xs env e1 evs hsf ha
          rw [hrun] at hnorm
          have hnp : ¬ priorStepsOk S p10 fsqrt lufsM n xs env := by
            rw [hiff]
            rintro ⟨_, w, hw⟩
            rw [ha] at hw
            simp at hw
          rw [hnorm]
          refine ⟨?_, ?_, ?_, fun h => absurd h hnp, by simp [hnp], ?_, ?_, ?_⟩
          · have hl := linearTrace_full (readCount xs) evs [] hshape
              (Or.inl rfl)
            simpa using hl
          · simp [List.count_append, List.count_cons,
              List.count_eq_zero.2 hfin, count_finalize_replicate_read]
          · constructor
            · intro h
              rcases List.mem_append.1 h with h | h
              · simp [List.mem_replicate] at h
              · rcases List.mem_cons.1 h with h | h
                · simp at h
                · exact absurd h hfin
            · intro h
              exact absurd h hnp
          · intro e he
            exact absurd he (by simp)
          · intro m2 hm2 hsf2
            exact absurd hsf2 (by simp)
          · intro m2 e evs2 hm2 hsf2 ha2
            injection hm2 with hm2
            subst hm2
            rw [ha] at ha2
            injection ha2 with h1 h2
            injection h2 with h2
            rw [h2]
        | ok w =>
          have hrun := runPass2_apply_ok S.channel_independent n
            (resolveGain S p10 fsqrt m) xs env w evs hsf ha
          rw [hrun] at hnorm
          have hps : priorStepsOk S p10 fsqrt lufsM n xs env := by
            rw [hiff]
            refine ⟨hsf, w, ?_⟩
            rw [ha]
          rw [hnorm]
          refine ⟨?_, ?_, ?_, ?_, ?_, ?_, ?_, ?_⟩
          · have hl := linearTrace_full (readCount xs) evs [Event.finalizeEv]
              hshape (Or.inr rfl)
            simpa [List.append_assoc] using hl
          · simp [List.count_append, List.count_cons,
              List.count_eq_zero.2 hfin, count_finalize_replicate_read]
          · constructor
            · intro _
              exact hps
            · intro _
              simp
          · intro _
            rw [show List.replicate (readCount xs) Event.readEv ++
                Event.seekEv :: (evs ++ [Event.finalizeEv]) =
                (List.replicate (readCount xs) Event.readEv ++
                  Event.seekEv :: evs) ++ [Event.finalizeEv] by simp]
            exact List.getLast?_concat _
          · cases hff : env.finalizeFail <;> simp [hps, hff]
          · intro e he
            exact absurd he (by simp)
          · intro m2 hm2 hsf2
            exact absurd hsf2 (by simp)
          · intro m2 e evs2 hm2 hsf2 ha2
            injection hm2 with hm2
            subst hm2
            rw [ha] at ha2
            injection ha2 with h1 h2
            simp at h2
